import Mathlib

/-!
# File Content Analyzer — verification of the traversal-and-filtering core

A shallow embedding of the `fca` package (traversal engine, filter policy,
matchers, and the three analysis drivers) together with theorems checking
the natural-language specification against it.

Modelling conventions:
* Python strings are Lean `String`s; character-level operations work on
  `String.data` (`List Char`), which matches Python's code-point view.
* Python `set`s and `dict`s of the source are modelled as lists, with
  `dict` insertion-order/overwrite semantics made explicit (`dictSet`,
  `bumpExt`, `dictAppend`).
* Filesystem trees are the inductive `Entry`; `os.walk` over a tree is
  `walkList`/`iterFilesFrom`.  Reading a file (`open(...).read()` with the
  tolerant decode policy) is an abstract `read : String → Option String`,
  `none` standing for a per-file I/O failure that the drivers swallow.
* `os.path.abspath` is an abstract parameter `abspath : String → String`;
  the drivers only ever compare its outputs for equality.
-/

/-- `os.path.join(a, b)` for the simple names produced by `os.walk`
(no absolute `b`, no trailing separator on `a`). -/
def pathJoin (a b : String) : String := a ++ "/" ++ b

/-- The part of a path after the last `/` separator
(`posixpath` basename, as used inside `os.path.splitext`). -/
def afterLastSep (cs : List Char) : List Char :=
  (cs.reverse.takeWhile (· ≠ '/')).reverse

/-- The extension part of `os.path.splitext`, without its leading dot:
the suffix after the last `.` of the basename, provided some character
before that dot in the basename is not itself a dot (so `.gitignore`,
`..a` and `name` have no extension, `a.tar.gz` has extension `gz`,
`a.` has extension `""`). -/
def extChars (cs : List Char) : List Char :=
  let rev := cs.reverse
  let tail := rev.takeWhile (· ≠ '.')
  match rev.dropWhile (· ≠ '.') with
  | [] => []
  | _ :: before => if before.any (· ≠ '.') then tail.reverse else []

/-- `os.path.splitext(path)[1].lower().lstrip(".")` — the normalized
extension computed by `iter_files` (traversal.py line 23) and by
`stats_mode.run` (stats_mode.py line 35). -/
def extOf (path : String) : String :=
  String.mk ((extChars (afterLastSep path.data)).map Char.toLower)

/-- The file-level filter of `iter_files` (traversal.py lines 23-27):
skip when `included_exts` is non-empty and the extension is not in it,
then skip when the extension is in `excluded_exts`, else keep. -/
def fileKept (excludedExts includedExts : List String) (name : String) : Bool :=
  let ext := extOf name
  if includedExts ≠ [] ∧ ext ∉ includedExts then false
  else if ext ∈ excludedExts then false
  else true

/-- Spec-side restatement of §4.1 `isFileAllowed`: "compute extension; if
includedExtensions is non-empty and extension not in it, reject; else if
extension in excludedExtensions, reject; else accept."  Kept separate from
`fileKept` (which is read off the code) so the two can be compared. -/
def isFileAllowedSpec (includedExtensions excludedExtensions : List String)
    (name : String) : Bool :=
  let ext := extOf name
  if includedExtensions ≠ [] ∧ ext ∉ includedExtensions then false
  else if ext ∈ excludedExtensions then false
  else true

/-- A directory entry: a file with its decoded content, or a subdirectory
with its children. -/
inductive Entry where
  | file (name content : String) : Entry
  | dir (name : String) (children : List Entry) : Entry

/-- The files of one directory level that `iter_files` yields before
descending (the `for name in files` loop, traversal.py lines 22-28). -/
def directFiles (excludedExts includedExts : List String) (root : String)
    (es : List Entry) : List String :=
  es.filterMap fun e =>
    match e with
    | Entry.file n _ => if fileKept excludedExts includedExts n then some (pathJoin root n) else none
    | Entry.dir _ _ => none

mutual

/-- Descent into a single child entry of `os.walk`: files contribute
nothing here (their parent level already yielded them), excluded
directories are pruned (`dirs[:] = [d for d in dirs if d not in
excluded_dirs]`, traversal.py line 21), and kept directories contribute
their whole subtree in `os.walk`'s top-down order. -/
def walkEntry (excludedDirs excludedExts includedExts : List String)
    (root : String) : Entry → List String
  | Entry.file _ _ => []
  | Entry.dir d cs =>
    if d ∈ excludedDirs then []
    else directFiles excludedExts includedExts (pathJoin root d) cs
      ++ walkList excludedDirs excludedExts includedExts (pathJoin root d) cs

/-- The concatenated subtree outputs of the (filtered) subdirectories of a
directory, in order. -/
def walkList (excludedDirs excludedExts includedExts : List String)
    (root : String) : List Entry → List String
  | [] => []
  | e :: es =>
    walkEntry excludedDirs excludedExts includedExts root e
      ++ walkList excludedDirs excludedExts includedExts root es

end

/-- `iter_files(root, ...)` restricted to an existing directory with
children `es`: yield the allowed files of the current level, then descend
into each non-excluded subdirectory (top-down `os.walk`). -/
def iterFilesFrom (excludedDirs excludedExts includedExts : List String)
    (root : String) (es : List Entry) : List String :=
  directFiles excludedExts includedExts root es
    ++ walkList excludedDirs excludedExts includedExts root es

/-- What the traversal root refers to on disk: a missing path, an existing
non-directory, or a directory with children. -/
inductive RootFS where
  | missing : RootFS
  | notADir (content : String) : RootFS
  | dir (children : List Entry) : RootFS

/-- `iter_files` (traversal.py lines 19-28).  `os.walk` opens the root
with `scandir`; on a missing path or a non-directory the resulting
`OSError` is swallowed by `os.walk`'s default `onerror=None`, so the
generator yields nothing and raises nothing — modelled by the total
function returning `[]` on those roots. -/
def iterFiles (excludedDirs excludedExts includedExts : List String)
    (start : String) (fs : RootFS) : List String :=
  match fs with
  | RootFS.dir es => iterFilesFrom excludedDirs excludedExts includedExts start es
  | _ => []

/-- `FileAt es chain name content`: starting from a directory with
children `es` and descending through the subdirectories named by `chain`,
there is a file `name` with content `content`. -/
inductive FileAt : List Entry → List String → String → String → Prop
  | here {es : List Entry} {name content : String} :
      Entry.file name content ∈ es → FileAt es [] name content
  | there {es : List Entry} {d : String} {cs : List Entry}
      {chain : List String} {name content : String} :
      Entry.dir d cs ∈ es → FileAt cs chain name content →
      FileAt es (d :: chain) name content

/-- The path `iter_files` builds for a file reached through `chain`. -/
def chainPath (root : String) (chain : List String) (name : String) : String :=
  pathJoin (chain.foldl pathJoin root) name

/-- Python `str.lower()` (ASCII range; all strings in the repository's
configuration and tests are ASCII). -/
def pyLower (s : String) : String := String.mk (s.data.map Char.toLower)

/-- The whitespace characters of Python's `str.split()` / `str.strip()`
(ASCII range). -/
def isPySpace (c : Char) : Bool :=
  c = ' ' ∨ c = '\t' ∨ c = '\n' ∨ c = '\r' ∨ c = '\x0b' ∨ c = '\x0c'

/-- Python `str.strip()`. -/
def pyStrip (s : String) : String :=
  String.mk (((s.data.dropWhile isPySpace).reverse.dropWhile isPySpace).reverse)

/-- Python `str.lstrip(".")`. -/
def lstripDots (s : String) : String :=
  String.mk (s.data.dropWhile (· = '.'))

/-- Code-point lexicographic `≤` on character lists — Python's ordering on
strings. -/
def lexLe : List Char → List Char → Bool
  | [], _ => true
  | _ :: _, [] => false
  | a :: as, b :: bs =>
    if a.toNat < b.toNat then true
    else if a.toNat = b.toNat then lexLe as bs
    else false

/-- Python string comparison `a <= b` (code-point lexicographic). -/
def pyStrLe (a b : String) : Bool := lexLe a.data b.data

/-- Insert into a `pyStrLe`-sorted list, keeping it sorted. -/
def insertSorted (x : String) : List String → List String
  | [] => [x]
  | y :: ys => if pyStrLe x y then x :: y :: ys else y :: insertSorted x ys

/-- Python `sorted` on a list of strings (ascending code-point
lexicographic order). -/
def pySorted : List String → List String
  | [] => []
  | x :: xs => insertSorted x (pySorted xs)

/-- `normalize_ext_list` (config.py lines 69-86): strip whitespace,
lowercase, strip leading dots, drop entries that are empty before or
after cleaning, and return the distinct survivors sorted.  (The guard for
a non-list argument, which returns `[]`, is outside this model: the input
is already a list of strings.) -/
def normalize_ext_list (values : List String) : List String :=
  let cleaned := values.filterMap fun v =>
    let s := pyStrip v
    if s = "" then none
    else
      let e := lstripDots (pyLower s)
      if e = "" then none else some e
  pySorted cleaned.dedup

/-- One step of Python `str.count` scanning: `k` is the number of
positions still to skip past the previously counted occurrence. -/
def strCountAux (needle : List Char) : List Char → Nat → Nat
  | [], _ => 0
  | _ :: cs, k + 1 => strCountAux needle cs k
  | hay@(_ :: cs), 0 =>
    if needle.isPrefixOf hay then 1 + strCountAux needle cs (needle.length - 1)
    else strCountAux needle cs 0

/-- Python `hay.count(needle)`: non-overlapping occurrences, scanned left
to right (`"aaaa".count("aa") == 2`); the empty needle counts
`len(hay) + 1` as in Python. -/
def pyCount (hay needle : String) : Nat :=
  if needle.data = [] then hay.data.length + 1
  else strCountAux needle.data hay.data 0

/-- Line-splitting engine shared by the code-side and spec-side line
semantics: `\r\n` is a single boundary, any other character for which
`isBreak` holds terminates a segment, and a final unterminated segment
still counts. -/
def splitBoundaries (isBreak : Char → Bool) : List Char → List (List Char)
  | [] => []
  | '\r' :: '\n' :: cs => [] :: splitBoundaries isBreak cs
  | c :: cs =>
    if isBreak c then [] :: splitBoundaries isBreak cs
    else
      match splitBoundaries isBreak cs with
      | [] => [[c]]
      | l :: ls => (c :: l) :: ls

/-- The line-boundary characters of Python `str.splitlines()`:
`\n`, `\r`, `\v`, `\f`, `\x1c`, `\x1d`, `\x1e`, `\x85`, `\u2028`,
`\u2029` (with `\r\n` handled as a single boundary by the engine). -/
def isPyLineBreak (c : Char) : Bool :=
  c = '\n' ∨ c = '\r' ∨ c = '\x0b' ∨ c = '\x0c' ∨ c = '\x1c' ∨ c = '\x1d' ∨
    c = '\x1e' ∨ c = '\x85' ∨ c = '\u2028' ∨ c = '\u2029'

/-- Python `text.splitlines()` — the line segmentation used by
`stats_mode.run` (stats_mode.py line 36). -/
def pySplitlines (cs : List Char) : List (List Char) :=
  splitBoundaries isPyLineBreak cs

/-- The universal-newline boundary characters: `\n` and `\r` (with `\r\n`
as a single boundary).  Spec-side notion for §4.5's "splitting on
universal newline boundaries". -/
def isUniversalBreak (c : Char) : Bool := c = '\n' ∨ c = '\r'

/-- Spec-side line segmentation of §4.5: split on universal newline
boundaries only (`\n`, `\r`, `\r\n`), a final unterminated line still
counting and a trailing newline adding no phantom line. -/
def universalSplitlines (cs : List Char) : List (List Char) :=
  splitBoundaries isUniversalBreak cs

/-- Worker for Python `str.split()`: `cur` holds the current word,
reversed. -/
def splitWordsAux : List Char → List Char → List (List Char)
  | [], cur => if cur = [] then [] else [cur.reverse]
  | c :: cs, cur =>
    if isPySpace c then
      if cur = [] then splitWordsAux cs [] else cur.reverse :: splitWordsAux cs []
    else splitWordsAux cs (c :: cur)

/-- Python `text.split()`: the maximal runs of non-whitespace characters
(used for `stats_mode.run`'s word count, stats_mode.py line 37). -/
def pySplitWords (cs : List Char) : List (List Char) := splitWordsAux cs []

/-- Python `dict` assignment `m[k] = v`: overwrite in place if the key
exists, else append a new binding (insertion order preserved). -/
def dictSet {α : Type} (m : List (String × α)) (k : String) (v : α) :
    List (String × α) :=
  match m with
  | [] => [(k, v)]
  | (k', v') :: rest => if k' = k then (k, v) :: rest else (k', v') :: dictSet rest k v

/-- Python `m.get(k)` / `k in m` lookup on the modelled dict. -/
def dictGet? {α : Type} (m : List (String × α)) (k : String) : Option α :=
  match m with
  | [] => none
  | (k', v') :: rest => if k' = k then some v' else dictGet? rest k

/-- The keys of a modelled dict, in insertion order. -/
def keysOf {α : Type} (m : List (String × α)) : List String := m.map Prod.fst

/-- Per-file counters of `stats_mode.run` (`lines`, `words`, `chars`). -/
structure FileCounts where
  lines : Nat
  words : Nat
  chars : Nat
deriving DecidableEq

/-- Per-extension accumulator of `stats_mode.run` (`files`, `lines`,
`words`, `chars`). -/
structure ExtAgg where
  files : Nat
  lines : Nat
  words : Nat
  chars : Nat
deriving DecidableEq

/-- The `per_ext` update of `stats_mode.run` (stats_mode.py lines 42-47):
initialize the bucket to zeros when absent, then add the file's counters
and bump `files` by one. -/
def bumpExt (m : List (String × ExtAgg)) (ext : String) (st : FileCounts) :
    List (String × ExtAgg) :=
  match m with
  | [] => [(ext, ⟨1, st.lines, st.words, st.chars⟩)]
  | (k, a) :: rest =>
    if k = ext then
      (k, ⟨a.files + 1, a.lines + st.lines, a.words + st.words, a.chars + st.chars⟩) :: rest
    else (k, a) :: bumpExt rest ext st

/-- The extension bucket key of `stats_mode.run` (stats_mode.py line 35):
`os.path.splitext(path)[1].lower().lstrip(".") or "(none)"`. -/
def extKey (path : String) : String :=
  let e := extOf path
  if e = "" then "(none)" else e

/-- The loop of `stats_mode.run` (stats_mode.py lines 28-49) over the
yielded paths: skip the entry file (by `abspath` comparison), skip
unreadable files, otherwise record per-file counters and bump the
per-extension bucket. -/
def statsRunAux (read : String → Option String) (abspath : String → String)
    (scriptPath : String) (pf : List (String × FileCounts))
    (pe : List (String × ExtAgg)) :
    List String → List (String × FileCounts) × List (String × ExtAgg)
  | [] => (pf, pe)
  | path :: rest =>
    if abspath path = scriptPath then statsRunAux read abspath scriptPath pf pe rest
    else
      match read path with
      | none => statsRunAux read abspath scriptPath pf pe rest
      | some text =>
        let st : FileCounts :=
          ⟨(pySplitlines text.data).length, (pySplitWords text.data).length, text.length⟩
        statsRunAux read abspath scriptPath
          (dictSet pf path st) (bumpExt pe (extKey path) st) rest

/-- `stats_mode.run` on an already-traversed list of paths: the `per_file`
and `per_ext` structures handed to the report writer. -/
def statsRun (read : String → Option String) (abspath : String → String)
    (entry : String) (paths : List String) :
    List (String × FileCounts) × List (String × ExtAgg) :=
  statsRunAux read abspath (abspath entry) [] [] paths

/-- The recomputation of one extension bucket from `per_file`: the entries
whose derived extension equals `ext`, counted and summed componentwise. -/
def recomputeAgg (pf : List (String × FileCounts)) (ext : String) : ExtAgg :=
  let entries := pf.filter fun pc => extKey pc.1 = ext
  ⟨entries.length, ((entries.map fun pc => pc.2.lines).sum),
    ((entries.map fun pc => pc.2.words).sum), ((entries.map fun pc => pc.2.chars).sum)⟩

/-- The inner counting loop of `search_mode.run` (search_mode.py lines
79-83): for each `(orig, term)` pair of `zip(strings, processed)`, store
`hay.count(term)` under the original string when it is non-zero. -/
def buildCounts (pairs : List (String × String)) (hay : String) :
    List (String × Nat) :=
  pairs.foldl
    (fun m pr =>
      let c := pyCount hay pr.2
      if c ≠ 0 then dictSet m pr.1 c else m)
    []

/-- The loop of `search_mode.run` (search_mode.py lines 72-87): skip the
entry file, skip unreadable files, lowercase the haystack in
case-insensitive mode, and keep a file only when some string occurs. -/
def searchRunAux (pairs : List (String × String)) (caseSensitive : Bool)
    (read : String → Option String) (abspath : String → String)
    (scriptPath : String) (acc : List (String × List (String × Nat))) :
    List String → List (String × List (String × Nat))
  | [] => acc
  | path :: rest =>
    if abspath path = scriptPath then
      searchRunAux pairs caseSensitive read abspath scriptPath acc rest
    else
      match read path with
      | none => searchRunAux pairs caseSensitive read abspath scriptPath acc rest
      | some text =>
        let hay := if caseSensitive then text else pyLower text
        let counts := buildCounts pairs hay
        if counts = [] then searchRunAux pairs caseSensitive read abspath scriptPath acc rest
        else searchRunAux pairs caseSensitive read abspath scriptPath
          (dictSet acc path counts) rest

/-- `search_mode.run` on an already-traversed list of paths: `processed`
is `strings` itself when case-sensitive, else the lowercased copies
(search_mode.py line 67), and the result maps retained paths to their
per-original-string positive counts. -/
def searchRun (strings : List String) (caseSensitive : Bool)
    (read : String → Option String) (abspath : String → String)
    (entry : String) (paths : List String) :
    List (String × List (String × Nat)) :=
  let processed := if caseSensitive then strings else strings.map pyLower
  searchRunAux (strings.zip processed) caseSensitive read abspath (abspath entry) [] paths

/-- Split a character-class body at its first `]` (fnmatch's search for
the closing bracket): returns the body and the rest of the pattern, or
`none` when there is no closing bracket. -/
def findClose : List Char → Option (List Char × List Char)
  | [] => none
  | ']' :: rest => some ([], rest)
  | c :: rest => (findClose rest).map fun pr => (c :: pr.1, pr.2)

/-- Parse the remainder of a pattern after `[`, following
`fnmatch.translate`: an optional leading `!` negates; a `]` immediately
after `[` (or after `[!`) is a literal member; `none` when the bracket is
never closed (then the `[` is a literal character). -/
def parseClass (ps : List Char) : Option (Bool × List Char × List Char) :=
  let pr := match ps with
    | '!' :: r => (true, r)
    | _ => (false, ps)
  match pr.2 with
  | ']' :: r2 => (findClose r2).map fun br => (pr.1, ']' :: br.1, br.2)
  | other => (findClose other).map fun br => (pr.1, br.1, br.2)

/-- Membership in a character-class body with `a-b` ranges (a trailing or
leading `-` is a literal, a reversed range matches nothing), as the regex
class produced by `fnmatch.translate` does. -/
def classMember : List Char → Char → Bool
  | [], _ => false
  | a :: '-' :: b :: rest, c =>
    (a.toNat ≤ c.toNat ∧ c.toNat ≤ b.toNat) || classMember rest c
  | a :: rest, c => (a = c) || classMember rest c

/-- A lexed glob-pattern token: a literal character, `?`, `*`, or a
character class. -/
inductive GlobTok where
  | lit (c : Char) : GlobTok
  | anyChar : GlobTok
  | star : GlobTok
  | cls (neg : Bool) (body : List Char) : GlobTok
deriving DecidableEq

/-- Tokenize a glob pattern.  `fuel` only drives the recursion: every step
consumes at least one pattern character, so the wrapper's `ps.length` fuel
is always sufficient and the `fuel = 0` case is unreachable there. -/
def lexGlobAux : Nat → List Char → List GlobTok
  | 0, _ => []
  | _, [] => []
  | fuel + 1, '*' :: ps => GlobTok.star :: lexGlobAux fuel ps
  | fuel + 1, '?' :: ps => GlobTok.anyChar :: lexGlobAux fuel ps
  | fuel + 1, '[' :: ps =>
    match parseClass ps with
    | none => GlobTok.lit '[' :: lexGlobAux fuel ps
    | some (neg, body, rest) => GlobTok.cls neg body :: lexGlobAux fuel rest
  | fuel + 1, c :: ps => GlobTok.lit c :: lexGlobAux fuel ps

/-- Tokenized form of a glob pattern. -/
def lexGlob (ps : List Char) : List GlobTok := lexGlobAux ps.length ps

/-- Match a tokenized glob pattern against a full name (anchored at both
ends, as `fnmatch.translate` anchors its regex with `\Z`): `*` matches
any run of characters by trying every suffix, `?` exactly one character,
a class exactly one class member. -/
def tokMatch : List GlobTok → List Char → Bool
  | [], cs => cs.isEmpty
  | GlobTok.star :: ts, cs => cs.tails.any fun suf => tokMatch ts suf
  | GlobTok.anyChar :: _, [] => false
  | GlobTok.anyChar :: ts, _ :: cs => tokMatch ts cs
  | GlobTok.lit _ :: _, [] => false
  | GlobTok.lit a :: ts, c :: cs => (a = c) && tokMatch ts cs
  | GlobTok.cls _ _ :: _, [] => false
  | GlobTok.cls neg body :: ts, c :: cs => (neg != classMember body c) && tokMatch ts cs

/-- `fnmatch.fnmatchcase(name, pattern)`: anchored shell-style glob
matching, exactly as case-sensitive as its inputs. -/
def fnmatchcase (name pattern : String) : Bool :=
  tokMatch (lexGlob pattern.data) name.data

/-- `_matches_any_pattern` (name_search_mode.py lines 77-89): the patterns
matching a file name; in case-insensitive mode both the name and each
pattern are lowercased first. -/
def matchesAnyPattern (filename : String) (patterns : List String)
    (caseSensitive : Bool) : List String :=
  if caseSensitive then patterns.filter fun p => fnmatchcase filename p
  else
    let lowerName := pyLower filename
    patterns.filter fun p => fnmatchcase lowerName (pyLower p)

/-- Python `list.append` through the dict: `hits_by_pattern[p].append(path)`
(the key is always present, seeded from `patterns`; on a genuinely missing
key Python would raise, which cannot happen in `run`). -/
def dictAppend (m : List (String × List String)) (k : String) (v : String) :
    List (String × List String) :=
  match m with
  | [] => []
  | (k', vs) :: rest =>
    if k' = k then (k', vs ++ [v]) :: rest else (k', vs) :: dictAppend rest k v

/-- The loop of `name_search_mode.run` (name_search_mode.py lines
110-118): skip the entry file, then append the path to the hit list of
every pattern matching its basename. -/
def nameSearchRunAux (patterns : List String) (caseSensitive : Bool)
    (abspath : String → String) (scriptPath : String)
    (acc : List (String × List String)) :
    List String → List (String × List String)
  | [] => acc
  | path :: rest =>
    if abspath path = scriptPath then
      nameSearchRunAux patterns caseSensitive abspath scriptPath acc rest
    else
      let name := String.mk (afterLastSep path.data)
      let matched := matchesAnyPattern name patterns caseSensitive
      nameSearchRunAux patterns caseSensitive abspath scriptPath
        (matched.foldl (fun h p => dictAppend h p path) acc) rest

/-- `name_search_mode.run` on an already-traversed list of paths:
`hits_by_pattern`, seeded with an empty list per pattern
(name_search_mode.py line 106). -/
def nameSearchRun (patterns : List String) (caseSensitive : Bool)
    (abspath : String → String) (entry : String) (paths : List String) :
    List (String × List String) :=
  nameSearchRunAux patterns caseSensitive abspath (abspath entry)
    (patterns.map fun p => (p, ([] : List String))) paths

/-- The per-pattern path lists as `write_name_search_report` emits them
(reporting.py lines 119-127): for each pattern in order,
`sorted(hits_by_pattern.get(p, []))`. -/
def reportLists (patterns : List String) (hits : List (String × List String)) :
    List (String × List String) :=
  patterns.map fun p => (p, pySorted ((dictGet? hits p).getD []))

/-! ## Order properties of the string comparison and sort -/

theorem lexLe_total : ∀ a b : List Char, lexLe a b = true ∨ lexLe b a = true := by
  intro a
  induction a with
  | nil => intro b; left; simp [lexLe]
  | cons x xs ih =>
    intro b
    cases b with
    | nil => right; simp [lexLe]
    | cons y ys =>
      by_cases h1 : x.toNat < y.toNat
      · left; simp [lexLe, h1]
      · by_cases h2 : x.toNat = y.toNat
        · rcases ih ys with h | h
          · left; simp [lexLe, h1, h2, h]
          · right
            have h1' : ¬ y.toNat < x.toNat := by omega
            simp [lexLe, h1', h2.symm, h]
        · right
          have h3 : y.toNat < x.toNat := by omega
          simp [lexLe, h3]

theorem lexLe_trans :
    ∀ a b c : List Char, lexLe a b = true → lexLe b c = true → lexLe a c = true := by
  intro a
  induction a with
  | nil => intro b c _ _; simp [lexLe]
  | cons x xs ih =>
    intro b c hab hbc
    cases b with
    | nil => simp [lexLe] at hab
    | cons y ys =>
      cases c with
      | nil => simp [lexLe] at hbc
      | cons z zs =>
        by_cases hxy : x.toNat < y.toNat
        · by_cases hyz : y.toNat < z.toNat
          · have : x.toNat < z.toNat := by omega
            simp [lexLe, this]
          · by_cases hyz' : y.toNat = z.toNat
            · have : x.toNat < z.toNat := by omega
              simp [lexLe, this]
            · simp [lexLe, hyz, hyz'] at hbc
        · by_cases hxy' : x.toNat = y.toNat
          · by_cases hyz : y.toNat < z.toNat
            · have : x.toNat < z.toNat := by omega
              simp [lexLe, this]
            · by_cases hyz' : y.toNat = z.toNat
              · have hxz : x.toNat = z.toNat := by omega
                have hxz' : ¬ x.toNat < z.toNat := by omega
                simp [lexLe, hxy, hxy'] at hab
                simp [lexLe, hyz, hyz'] at hbc
                simp [lexLe, hxz, hxz', ih ys zs hab hbc]
              · simp [lexLe, hyz, hyz'] at hbc
          · simp [lexLe, hxy, hxy'] at hab

theorem pyStrLe_total (a b : String) : pyStrLe a b = true ∨ pyStrLe b a = true :=
  lexLe_total a.data b.data

theorem mem_insertSorted {x y : String} :
    ∀ {l : List String}, y ∈ insertSorted x l ↔ y = x ∨ y ∈ l := by
  intro l
  induction l with
  | nil => simp [insertSorted]
  | cons z zs ih =>
    by_cases h : pyStrLe x z = true
    · simp [insertSorted, h]
    · simp [insertSorted, h, ih]
      tauto

theorem mem_pySorted {y : String} :
    ∀ {l : List String}, y ∈ pySorted l ↔ y ∈ l := by
  intro l
  induction l with
  | nil => simp [pySorted]
  | cons z zs ih => simp [pySorted, mem_insertSorted, ih]

theorem sorted_insertSorted {x : String} {l : List String}
    (h : List.Sorted (fun a b => pyStrLe a b = true) l) :
    List.Sorted (fun a b => pyStrLe a b = true) (insertSorted x l) := by
  induction l with
  | nil => simp [insertSorted]
  | cons y ys ih =>
    rw [List.sorted_cons] at h
    by_cases hxy : pyStrLe x y = true
    · rw [insertSorted, if_pos hxy, List.sorted_cons]
      refine ⟨?_, List.sorted_cons.mpr h⟩
      intro b hb
      rcases List.mem_cons.mp hb with rfl | hb
      · exact hxy
      · exact lexLe_trans _ _ _ hxy (h.1 b hb)
    · rw [insertSorted, if_neg hxy, List.sorted_cons]
      refine ⟨?_, ih h.2⟩
      intro b hb
      rcases mem_insertSorted.mp hb with heq | hb
      · rw [heq]
        rcases pyStrLe_total x y with h' | h'
        · exact absurd h' hxy
        · exact h'
      · exact h.1 b hb

theorem sorted_pySorted :
    ∀ l : List String, List.Sorted (fun a b => pyStrLe a b = true) (pySorted l) := by
  intro l
  induction l with
  | nil => simp [pySorted]
  | cons x xs ih => exact sorted_insertSorted ih

/-! ## Dict-model lemmas -/

theorem mem_dictSet {α : Type} {kv : String × α} {k : String} {v : α} :
    ∀ {m : List (String × α)}, kv ∈ dictSet m k v → kv ∈ m ∨ kv = (k, v) := by
  intro m
  induction m with
  | nil => simp [dictSet]
  | cons hd tl ih =>
    by_cases h : hd.1 = k
    · rw [show (hd :: tl : List (String × α)) = (hd.1, hd.2) :: tl from rfl,
        dictSet, if_pos h]
      intro hmem
      rcases List.mem_cons.mp hmem with heq | hmem
      · right; exact heq
      · left; exact List.mem_cons_of_mem _ hmem
    · rw [show (hd :: tl : List (String × α)) = (hd.1, hd.2) :: tl from rfl,
        dictSet, if_neg h]
      intro hmem
      rcases List.mem_cons.mp hmem with heq | hmem
      · left; rw [heq]; exact List.mem_cons_self _ _
      · rcases ih hmem with h' | h'
        · left; exact List.mem_cons_of_mem _ h'
        · right; exact h'

theorem keysOf_dictSet_fresh {α : Type} {k : String} {v : α} :
    ∀ {m : List (String × α)}, k ∉ keysOf m → dictSet m k v = m ++ [(k, v)] := by
  intro m
  induction m with
  | nil => intro _; simp [dictSet]
  | cons hd tl ih =>
    intro hk
    have h1 : hd.1 ≠ k := by
      intro h
      exact hk (by simp [keysOf, h])
    have h2 : k ∉ keysOf tl := by
      intro h
      exact hk (by simp [keysOf] at h ⊢; tauto)
    rw [show (hd :: tl : List (String × α)) = (hd.1, hd.2) :: tl from rfl,
      dictSet, if_neg h1, ih h2]
    rfl

theorem keysOf_dictSet {α : Type} {k' k : String} {v : α} :
    ∀ {m : List (String × α)}, k' ∈ keysOf (dictSet m k v) → k' ∈ keysOf m ∨ k' = k := by
  intro m hk
  rcases List.mem_map.mp hk with ⟨kv, hkv, hfst⟩
  rcases mem_dictSet hkv with h | h
  · left; exact hfst ▸ List.mem_map_of_mem _ h
  · right; rw [← hfst, h]

theorem mem_dictAppend {k' : String} {vs : List String} {k v : String} :
    ∀ {m : List (String × List String)}, (k', vs) ∈ dictAppend m k v →
      ∃ vs₀, (k', vs₀) ∈ m ∧ (vs = vs₀ ∨ vs = vs₀ ++ [v]) := by
  intro m
  induction m with
  | nil => simp [dictAppend]
  | cons hd tl ih =>
    by_cases h : hd.1 = k
    · rw [show (hd :: tl : List (String × List String)) = (hd.1, hd.2) :: tl from rfl,
        dictAppend, if_pos h]
      intro hmem
      rcases List.mem_cons.mp hmem with heq | hmem
      · exact ⟨hd.2, by simp [Prod.ext_iff] at heq ⊢; tauto⟩
      · exact ⟨vs, List.mem_cons_of_mem _ hmem, Or.inl rfl⟩
    · rw [show (hd :: tl : List (String × List String)) = (hd.1, hd.2) :: tl from rfl,
        dictAppend, if_neg h]
      intro hmem
      rcases List.mem_cons.mp hmem with heq | hmem
      · refine ⟨vs, ?_, Or.inl rfl⟩
        rw [heq]
        exact List.mem_cons_self _ _
      · rcases ih hmem with ⟨vs₀, hvs₀, hor⟩
        exact ⟨vs₀, List.mem_cons_of_mem _ hvs₀, hor⟩

theorem dictGet?_of_mem {α : Type} {k : String} {v : α} :
    ∀ {m : List (String × α)}, (k, v) ∈ m → (keysOf m).Nodup →
      dictGet? m k = some v := by
  intro m
  induction m with
  | nil => simp
  | cons hd tl ih =>
    intro hmem hnd
    rw [show (hd :: tl : List (String × α)) = (hd.1, hd.2) :: tl from rfl, dictGet?]
    rcases List.mem_cons.mp hmem with heq | hmem
    · have h1 : hd.1 = k := by rw [Prod.ext_iff] at heq; exact heq.1.symm
      have h2 : hd.2 = v := by rw [Prod.ext_iff] at heq; exact heq.2.symm
      rw [if_pos h1, h2]
    · have hk : k ∈ keysOf tl := List.mem_map_of_mem _ hmem
      have h1 : hd.1 ≠ k := by
        intro h
        rw [keysOf, List.map_cons, List.nodup_cons] at hnd
        exact hnd.1 (h ▸ hk)
      rw [if_neg h1]
      rw [keysOf, List.map_cons, List.nodup_cons] at hnd
      exact ih hmem hnd.2

/-! ## Aggregation lemmas for the statistics driver -/

/-- The bucket for `ext`, defaulting to the all-zero bucket when absent
(the state `stats_mode.run` initializes a fresh bucket from). -/
def getAgg (pe : List (String × ExtAgg)) (ext : String) : ExtAgg :=
  (dictGet? pe ext).getD ⟨0, 0, 0, 0⟩

theorem getAgg_bumpExt (st : FileCounts) :
    ∀ (pe : List (String × ExtAgg)) (ext e : String),
      getAgg (bumpExt pe ext st) e =
        if e = ext then
          ⟨(getAgg pe ext).files + 1, (getAgg pe ext).lines + st.lines,
            (getAgg pe ext).words + st.words, (getAgg pe ext).chars + st.chars⟩
        else getAgg pe e := by
  intro pe
  induction pe with
  | nil =>
    intro ext e
    by_cases h : e = ext
    · subst h; simp [bumpExt, getAgg, dictGet?]
    · have h' : ext ≠ e := fun hh => h hh.symm
      simp [bumpExt, getAgg, dictGet?, h, h']
  | cons hd tl ih =>
    obtain ⟨k, a⟩ := hd
    intro ext e
    by_cases hk : k = ext
    · rw [bumpExt, if_pos hk]
      by_cases he : e = ext
      · subst he
        simp [getAgg, dictGet?, hk]
      · have h1 : k ≠ e := fun h => he (by rw [← h, hk])
        simp [getAgg, dictGet?, h1, if_neg he]
    · rw [bumpExt, if_neg hk]
      by_cases he : e = ext
      · subst he
        simp only [getAgg, dictGet?, if_neg hk, if_pos rfl]
        have := ih e e
        simp only [getAgg, if_pos rfl] at this
        rw [this]
      · by_cases h1 : k = e
        · simp [getAgg, dictGet?, h1, if_neg he]
        · simp only [getAgg, dictGet?, if_neg h1, if_neg he]
          have := ih ext e
          simp only [getAgg, if_neg he] at this
          rw [this]

theorem keysOf_bumpExt {e : String} (st : FileCounts) :
    ∀ {pe : List (String × ExtAgg)} {ext : String},
      e ∈ keysOf (bumpExt pe ext st) → e ∈ keysOf pe ∨ e = ext := by
  intro pe
  induction pe with
  | nil =>
    intro ext h
    simp [bumpExt, keysOf] at h
    right; exact h
  | cons hd tl ih =>
    intro ext h
    by_cases hk : hd.1 = ext
    · rw [show (hd :: tl : List (String × ExtAgg)) = (hd.1, hd.2) :: tl from rfl,
        bumpExt, if_pos hk] at h
      simp [keysOf] at h ⊢
      tauto
    · rw [show (hd :: tl : List (String × ExtAgg)) = (hd.1, hd.2) :: tl from rfl,
        bumpExt, if_neg hk] at h
      simp [keysOf] at h ⊢
      rcases h with h | h
      · tauto
      · rcases ih (by simpa [keysOf] using h) with h' | h'
        · left; right; simpa [keysOf] using h'
        · tauto

theorem nodupKeys_bumpExt (st : FileCounts) :
    ∀ {pe : List (String × ExtAgg)} {ext : String},
      (keysOf pe).Nodup → (keysOf (bumpExt pe ext st)).Nodup := by
  intro pe
  induction pe with
  | nil => intro ext _; simp [bumpExt, keysOf]
  | cons hd tl ih =>
    intro ext hnd
    rw [keysOf, List.map_cons, List.nodup_cons] at hnd
    by_cases hk : hd.1 = ext
    · rw [show (hd :: tl : List (String × ExtAgg)) = (hd.1, hd.2) :: tl from rfl,
        bumpExt, if_pos hk, keysOf, List.map_cons, List.nodup_cons]
      exact ⟨hnd.1, hnd.2⟩
    · rw [show (hd :: tl : List (String × ExtAgg)) = (hd.1, hd.2) :: tl from rfl,
        bumpExt, if_neg hk, keysOf, List.map_cons, List.nodup_cons]
      refine ⟨?_, ih hnd.2⟩
      intro hmem
      rcases keysOf_bumpExt st hmem with h | h
      · exact hnd.1 h
      · exact hk h

theorem recomputeAgg_append (pf : List (String × FileCounts)) (p : String)
    (st : FileCounts) (ext : String) :
    recomputeAgg (pf ++ [(p, st)]) ext =
      if extKey p = ext then
        ⟨(recomputeAgg pf ext).files + 1, (recomputeAgg pf ext).lines + st.lines,
          (recomputeAgg pf ext).words + st.words, (recomputeAgg pf ext).chars + st.chars⟩
      else recomputeAgg pf ext := by
  by_cases h : extKey p = ext
  · simp [recomputeAgg, List.filter_append, h]
  · simp [recomputeAgg, List.filter_append, h]

theorem keysOf_append {α : Type} (m₁ m₂ : List (String × α)) :
    keysOf (m₁ ++ m₂) = keysOf m₁ ++ keysOf m₂ := by
  simp [keysOf]

theorem statsRunAux_inv (read : String → Option String) (abspath : String → String)
    (script : String) :
    ∀ (paths : List String) (pf : List (String × FileCounts)) (pe : List (String × ExtAgg)),
      paths.Nodup → (∀ p ∈ paths, p ∉ keysOf pf) →
      (keysOf pe).Nodup →
      (∀ ext, getAgg pe ext = recomputeAgg pf ext) →
      (keysOf (statsRunAux read abspath script pf pe paths).2).Nodup ∧
      ∀ ext, getAgg (statsRunAux read abspath script pf pe paths).2 ext =
        recomputeAgg (statsRunAux read abspath script pf pe paths).1 ext := by
  intro paths
  induction paths with
  | nil => intro pf pe _ _ hpe hinv; exact ⟨hpe, hinv⟩
  | cons path rest ih =>
    intro pf pe hnd hfresh hpe hinv
    rw [List.nodup_cons] at hnd
    by_cases hskip : abspath path = script
    · rw [statsRunAux, if_pos hskip]
      exact ih pf pe hnd.2 (fun p hp => hfresh p (List.mem_cons_of_mem _ hp)) hpe hinv
    · rw [statsRunAux, if_neg hskip]
      cases hread : read path with
      | none =>
        exact ih pf pe hnd.2 (fun p hp => hfresh p (List.mem_cons_of_mem _ hp)) hpe hinv
      | some text =>
        have hpathfresh : path ∉ keysOf pf := hfresh path (List.mem_cons_self _ _)
        have hset := keysOf_dictSet_fresh (v :=
          (⟨(pySplitlines text.data).length, (pySplitWords text.data).length, text.length⟩ : FileCounts))
          hpathfresh
        refine ih _ _ hnd.2 ?_ (nodupKeys_bumpExt _ hpe) ?_
        · intro p hp
          rw [hset, keysOf_append]
          intro hmem
          rcases List.mem_append.mp hmem with h | h
          · exact hfresh p (List.mem_cons_of_mem _ hp) h
          · simp [keysOf] at h
            exact hnd.1 (h ▸ hp)
        · intro ext
          rw [getAgg_bumpExt, hset, recomputeAgg_append]
          by_cases he : ext = extKey path
          · subst he
            rw [if_pos rfl, if_pos rfl, hinv]
          · rw [if_neg he, if_neg (fun h => he h.symm), hinv ext]

/-- C3: for every run of the File Statistics driver (over the traversal's
duplicate-free path sequence), every per-extension bucket built
incrementally equals the recomputation from the per-file entries whose
derived extension is the bucket's key — `files` is the number of such
entries and `lines`/`words`/`chars` their componentwise sums. -/
theorem spec_C3 (read : String → Option String) (abspath : String → String)
    (entry : String) (paths : List String) (hnd : paths.Nodup) :
    ∀ ext agg, (ext, agg) ∈ (statsRun read abspath entry paths).2 →
      agg = recomputeAgg (statsRun read abspath entry paths).1 ext := by
  have h := statsRunAux_inv read abspath (abspath entry) paths [] [] hnd
    (by simp [keysOf]) (by simp [keysOf])
    (fun ext => by simp [getAgg, dictGet?, recomputeAgg])
  intro ext agg hmem
  have hrun : statsRun read abspath entry paths =
      statsRunAux read abspath (abspath entry) [] [] paths := rfl
  rw [hrun] at hmem ⊢
  have hget := dictGet?_of_mem hmem h.1
  have hx := h.2 ext
  simp only [getAgg, hget] at hx
  simpa using hx

/-- Witness for C3 at a concrete two-file run. -/
theorem spec_C3_witness :
    (["r/a.py", "r/b.py"] : List String).Nodup ∧
    ("py", (⟨2, 3, 3, 4⟩ : ExtAgg)) ∈
      (statsRun (fun p => if p = "r/a.py" then some "x\ny" else some "z")
        id "m.py" ["r/a.py", "r/b.py"]).2 ∧
    (⟨2, 3, 3, 4⟩ : ExtAgg) =
      recomputeAgg (statsRun (fun p => if p = "r/a.py" then some "x\ny" else some "z")
        id "m.py" ["r/a.py", "r/b.py"]).1 "py" :=
  ⟨by decide, by decide,
    spec_C3 (fun p => if p = "r/a.py" then some "x\ny" else some "z") id "m.py"
      ["r/a.py", "r/b.py"] (by decide) "py" ⟨2, 3, 3, 4⟩ (by decide)⟩

/-! ## Characterizing the traversal output -/

theorem mem_directFiles {xE iE : List String} {root p : String} {es : List Entry} :
    p ∈ directFiles xE iE root es ↔
      ∃ name content, Entry.file name content ∈ es ∧
        fileKept xE iE name = true ∧ p = pathJoin root name := by
  constructor
  · intro h
    rcases List.mem_filterMap.mp h with ⟨e, he, hsome⟩
    cases e with
    | file n c =>
      by_cases hk : fileKept xE iE n = true
      · simp only [hk, if_pos] at hsome
        exact ⟨n, c, he, hk, (Option.some_inj.mp hsome).symm⟩
      · simp [hk] at hsome
    | dir d cs => simp at hsome
  · rintro ⟨name, content, hmem, hkept, hp⟩
    exact List.mem_filterMap.mpr ⟨Entry.file name content, hmem, by simp [hkept, hp]⟩

theorem mem_walkList {xD xE iE : List String} {root p : String} :
    ∀ {es : List Entry}, p ∈ walkList xD xE iE root es ↔
      ∃ d cs, Entry.dir d cs ∈ es ∧ d ∉ xD ∧
        p ∈ iterFilesFrom xD xE iE (pathJoin root d) cs := by
  intro es
  induction es with
  | nil => simp [walkList]
  | cons e es ih =>
    rw [walkList, List.mem_append]
    cases e with
    | file n c =>
      rw [walkEntry]
      simp only [List.not_mem_nil, false_or, ih]
      constructor
      · rintro ⟨d, cs, hmem, hnx, hp⟩
        exact ⟨d, cs, List.mem_cons_of_mem _ hmem, hnx, hp⟩
      · rintro ⟨d, cs, hmem, hnx, hp⟩
        rcases List.mem_cons.mp hmem with heq | hmem
        · cases heq
        · exact ⟨d, cs, hmem, hnx, hp⟩
    | dir d cs =>
      rw [walkEntry]
      by_cases hd : d ∈ xD
      · rw [if_pos hd]
        simp only [List.not_mem_nil, false_or, ih]
        constructor
        · rintro ⟨d', cs', hmem, hnx, hp⟩
          exact ⟨d', cs', List.mem_cons_of_mem _ hmem, hnx, hp⟩
        · rintro ⟨d', cs', hmem, hnx, hp⟩
          rcases List.mem_cons.mp hmem with heq | hmem
          · cases heq; exact absurd hd hnx
          · exact ⟨d', cs', hmem, hnx, hp⟩
      · rw [if_neg hd]
        constructor
        · intro h
          rcases h with h | h
          · exact ⟨d, cs, List.mem_cons_self _ _, hd, h⟩
          · rcases ih.mp h with ⟨d', cs', hmem, hnx, hp⟩
            exact ⟨d', cs', List.mem_cons_of_mem _ hmem, hnx, hp⟩
        · rintro ⟨d', cs', hmem, hnx, hp⟩
          rcases List.mem_cons.mp hmem with heq | hmem
          · cases heq
            left
            exact hp
          · right
            exact ih.mpr ⟨d', cs', hmem, hnx, hp⟩

theorem mem_iterFilesFrom_bounded (xD xE iE : List String) :
    ∀ (n : Nat) (es : List Entry), sizeOf es < n → ∀ (root p : String),
      (p ∈ iterFilesFrom xD xE iE root es ↔
        ∃ chain name content, FileAt es chain name content ∧
          (∀ d ∈ chain, d ∉ xD) ∧ fileKept xE iE name = true ∧
          p = chainPath root chain name) := by
  intro n
  induction n with
  | zero => intro es h; omega
  | succ n ih =>
    intro es hsize root p
    rw [iterFilesFrom, List.mem_append]
    constructor
    · intro h
      rcases h with h | h
      · rcases mem_directFiles.mp h with ⟨name, content, hmem, hkept, hp⟩
        exact ⟨[], name, content, FileAt.here hmem, by simp, hkept, hp⟩
      · rcases mem_walkList.mp h with ⟨d, cs, hdir, hnx, hmem⟩
        have hlt : sizeOf cs < n := by
          have h1 := List.sizeOf_lt_of_mem hdir
          have h2 : sizeOf cs < sizeOf (Entry.dir d cs) := by
            simp only [Entry.dir.sizeOf_spec]
            omega
          omega
        rcases (ih cs hlt (pathJoin root d) p).mp hmem with
          ⟨chain, name, content, hat, hchain, hkept, hp⟩
        refine ⟨d :: chain, name, content, FileAt.there hdir hat, ?_, hkept, hp⟩
        intro d' hd'
        rcases List.mem_cons.mp hd' with heq | hd'
        · exact heq ▸ hnx
        · exact hchain d' hd'
    · rintro ⟨chain, name, content, hat, hchain, hkept, hp⟩
      cases hat with
      | here hmem =>
        left
        exact mem_directFiles.mpr ⟨name, content, hmem, hkept, hp⟩
      | @there _ d cs chain' _ _ hdir hat' =>
        right
        have hlt : sizeOf cs < n := by
          have h1 := List.sizeOf_lt_of_mem hdir
          have h2 : sizeOf cs < sizeOf (Entry.dir d cs) := by
            simp only [Entry.dir.sizeOf_spec]
            omega
          omega
        refine mem_walkList.mpr ⟨d, cs, hdir, hchain d (List.mem_cons_self _ _), ?_⟩
        exact (ih cs hlt (pathJoin root d) p).mpr
          ⟨chain', name, content, hat',
            fun d' h => hchain d' (List.mem_cons_of_mem _ h), hkept, hp⟩

theorem mem_iterFilesFrom_iff (xD xE iE : List String) (root : String)
    (es : List Entry) (p : String) :
    p ∈ iterFilesFrom xD xE iE root es ↔
      ∃ chain name content, FileAt es chain name content ∧
        (∀ d ∈ chain, d ∉ xD) ∧ fileKept xE iE name = true ∧
        p = chainPath root chain name :=
  mem_iterFilesFrom_bounded xD xE iE (sizeOf es + 1) es (by omega) root p

theorem iterFilesFrom_prune {xD xE iE : List String} {d : String}
    (hd : d ∈ xD) (cs : List Entry) (root : String) (es : List Entry) :
    iterFilesFrom xD xE iE root (Entry.dir d cs :: es) =
      iterFilesFrom xD xE iE root es := by
  rw [iterFilesFrom, iterFilesFrom, directFiles, directFiles, List.filterMap_cons,
    walkList, walkEntry, if_pos hd]
  rfl

/-! ## Filter-policy and traversal claims -/

/-- C1: for every filename and filter sets, the file-level filter of
`iter_files` accepts exactly by the spec's `isFileAllowed` rule (allowlist
check first when non-empty, exclusion check afterwards); in particular an
extension present in both sets is rejected. -/
theorem spec_C1 (excludedExts includedExts : List String) (name : String) :
    fileKept excludedExts includedExts name =
      isFileAllowedSpec includedExts excludedExts name ∧
    (extOf name ∈ includedExts ∧ extOf name ∈ excludedExts →
      fileKept excludedExts includedExts name = false) := by
  refine ⟨rfl, ?_⟩
  rintro ⟨hin, hex⟩
  simp [fileKept, hin, hex]

/-- Witness for C1 with `py` both included and excluded. -/
theorem spec_C1_witness :
    extOf "a.py" ∈ ["py"] ∧ extOf "a.py" ∈ ["py"] ∧
    fileKept ["py"] ["py"] "a.py" = false :=
  ⟨by decide, by decide, (spec_C1 ["py"] ["py"] "a.py").2 ⟨by decide, by decide⟩⟩

/-- C2: every path the traversal yields comes from a file reached through
a chain of directories none of which is excluded — so no file anywhere
beneath an excluded subdirectory is ever yielded — and an excluded
directory's whole subtree contributes nothing to the output. -/
theorem spec_C2 (excludedDirs excludedExts includedExts : List String)
    (root : String) (es : List Entry) :
    (∀ p ∈ iterFilesFrom excludedDirs excludedExts includedExts root es,
      ∃ chain name content, FileAt es chain name content ∧
        (∀ d ∈ chain, d ∉ excludedDirs) ∧
        fileKept excludedExts includedExts name = true ∧
        p = chainPath root chain name) ∧
    ∀ d cs es', d ∈ excludedDirs →
      iterFilesFrom excludedDirs excludedExts includedExts root (Entry.dir d cs :: es') =
        iterFilesFrom excludedDirs excludedExts includedExts root es' := by
  constructor
  · intro p hp
    exact (mem_iterFilesFrom_iff excludedDirs excludedExts includedExts root es p).mp hp
  · intro d cs es' hd
    exact iterFilesFrom_prune hd cs root es'

/-- Witness for C2: a yielded path is explained by a clean chain, and a
tree headed by an excluded directory yields the same as without it. -/
theorem spec_C2_witness :
    (∃ chain name content,
      FileAt [Entry.file "a.py" "c"] chain name content ∧
      (∀ d ∈ chain, d ∉ (["x"] : List String)) ∧
      fileKept [] [] name = true ∧
      "r/a.py" = chainPath "r" chain name) ∧
    iterFilesFrom ["x"] [] [] "r" [Entry.dir "x" [Entry.file "b.py" "c"]] =
      iterFilesFrom ["x"] [] [] "r" [] :=
  ⟨(spec_C2 ["x"] [] [] "r" [Entry.file "a.py" "c"]).1 "r/a.py" (by decide),
   (spec_C2 ["x"] [] [] "r" []).2 "x" [Entry.file "b.py" "c"] [] (by decide)⟩

/-- C8: on a root that does not exist or is not a directory, `iter_files`
produces the empty sequence; being a total function of the modelled root
state, it raises nothing to its caller. -/
theorem spec_C8 (excludedDirs excludedExts includedExts : List String) (start : String) :
    iterFiles excludedDirs excludedExts includedExts start RootFS.missing = [] ∧
    ∀ content, iterFiles excludedDirs excludedExts includedExts start
      (RootFS.notADir content) = [] :=
  ⟨rfl, fun _ => rfl⟩

/-- C9: glob matching is anchored to the full file name (no substring
match at either end) and case-insensitive mode lowercases both name and
pattern: `*.txt` matches `a.txt` in both modes and `A.TXT` only when
case-insensitive. -/
theorem spec_C9 :
    matchesAnyPattern "a.txt" ["*.txt"] true = ["*.txt"] ∧
    matchesAnyPattern "a.txt" ["*.txt"] false = ["*.txt"] ∧
    matchesAnyPattern "A.TXT" ["*.txt"] false = ["*.txt"] ∧
    matchesAnyPattern "A.TXT" ["*.txt"] true = [] ∧
    fnmatchcase "a.txt.bak" "*.txt" = false ∧
    fnmatchcase "xa.txt" "a.*" = false := by
  decide

theorem ne_empty_of_mem_normalize {e : String} {values : List String}
    (he : e ∈ normalize_ext_list values) : e ≠ "" := by
  rw [normalize_ext_list, mem_pySorted, List.mem_dedup] at he
  rcases List.mem_filterMap.mp he with ⟨v, _, hsome⟩
  simp only at hsome
  by_cases h1 : pyStrip v = ""
  · rw [if_pos h1] at hsome
    cases hsome
  · rw [if_neg h1] at hsome
    by_cases h2 : lstripDots (pyLower (pyStrip v)) = ""
    · rw [if_pos h2] at hsome
      cases hsome
    · rw [if_neg h2] at hsome
      intro habs
      rw [habs] at hsome
      exact h2 (Option.some_inj.mp hsome)

theorem fileKept_incl {excludedExts includedExts : List String} {name : String}
    (h : fileKept excludedExts includedExts name = true)
    (hne : includedExts ≠ []) : extOf name ∈ includedExts := by
  by_contra hnot
  rw [fileKept] at h
  simp only [if_pos (And.intro hne hnot)] at h
  cases h

/-- C10: normalized extension lists never contain the empty string, so a
non-empty `included_extensions` allowlist rejects every extensionless
file (dotfiles like `.gitignore` included, whose filter extension is `""`,
not `"(none)"`), adding the literal token `"(none)"` does not let
extensionless files through, and every file a traversal with such an
allowlist yields has a non-empty extension. -/
theorem spec_C10 (excludedDirs excludedExts values : List String) (name : String) :
    ("" ∉ normalize_ext_list values) ∧
    (normalize_ext_list values ≠ [] → extOf name = "" →
      fileKept excludedExts (normalize_ext_list values) name = false) ∧
    (extOf name = "" →
      fileKept excludedExts (normalize_ext_list ("(none)" :: values)) name = false) ∧
    extOf ".gitignore" = "" ∧
    ∀ root es p, normalize_ext_list values ≠ [] →
      p ∈ iterFilesFrom excludedDirs excludedExts (normalize_ext_list values) root es →
      ∃ chain name' content, FileAt es chain name' content ∧
        p = chainPath root chain name' ∧ extOf name' ≠ "" := by
  refine ⟨fun h => ne_empty_of_mem_normalize h rfl, ?_, ?_, by decide, ?_⟩
  · intro hne hext
    have h0 : extOf name ∉ normalize_ext_list values := by
      rw [hext]
      exact fun h => ne_empty_of_mem_normalize h rfl
    rw [fileKept, if_pos (And.intro hne h0)]
  · intro hext
    have hmem : "(none)" ∈ normalize_ext_list ("(none)" :: values) := by
      rw [normalize_ext_list, mem_pySorted, List.mem_dedup]
      exact List.mem_filterMap.mpr ⟨"(none)", List.mem_cons_self _ _, by decide⟩
    have hne : normalize_ext_list ("(none)" :: values) ≠ [] :=
      List.ne_nil_of_mem hmem
    have h0 : extOf name ∉ normalize_ext_list ("(none)" :: values) := by
      rw [hext]
      exact fun h => ne_empty_of_mem_normalize h rfl
    rw [fileKept, if_pos (And.intro hne h0)]
  · intro root es p hne hp
    rcases (mem_iterFilesFrom_iff excludedDirs excludedExts
      (normalize_ext_list values) root es p).mp hp with
      ⟨chain, name', content, hat, _, hkept, hpath⟩
    refine ⟨chain, name', content, hat, hpath, ?_⟩
    intro habs
    have := fileKept_incl hkept hne
    rw [habs] at this
    exact ne_empty_of_mem_normalize this rfl

/-- Witness for C10 on `.gitignore` and a `py`-allowlist traversal. -/
theorem spec_C10_witness :
    fileKept [] (normalize_ext_list ["py"]) ".gitignore" = false ∧
    fileKept [] (normalize_ext_list ["(none)", "py"]) ".gitignore" = false ∧
    ∃ chain name' content,
      FileAt [Entry.file "a.py" "x"] chain name' content ∧
      "r/a.py" = chainPath "r" chain name' ∧ extOf name' ≠ "" :=
  ⟨(spec_C10 [] [] ["py"] ".gitignore").2.1 (by decide) (by decide),
   (spec_C10 [] [] ["py"] ".gitignore").2.2.1 (by decide),
   (spec_C10 [] [] ["py"] ".gitignore").2.2.2.2 "r" [Entry.file "a.py" "x"]
     "r/a.py" (by decide) (by decide)⟩

/-! ## Line-splitting semantics (C7) -/

theorem splitBoundaries_rn (f : Char → Bool) (cs : List Char) :
    splitBoundaries f ('\r' :: '\n' :: cs) = [] :: splitBoundaries f cs := rfl

theorem splitBoundaries_cons (f : Char → Bool) (c : Char) (cs : List Char)
    (h : ∀ rest, c = '\r' → cs = '\n' :: rest → False) :
    splitBoundaries f (c :: cs) =
      if f c then [] :: splitBoundaries f cs
      else
        match splitBoundaries f cs with
        | [] => [[c]]
        | l :: ls => (c :: l) :: ls := by
  rw [splitBoundaries.eq_def]
  split
  · rename_i heq; cases heq
  · rename_i cs' heq
    rw [List.cons.injEq] at heq
    exact (h cs' heq.1 heq.2).elim
  · rename_i c' cs' hne heq
    rw [List.cons.injEq] at heq
    rw [heq.1, heq.2]

theorem splitBoundaries_congr (f g : Char → Bool) :
    ∀ cs : List Char, (∀ c ∈ cs, f c = g c) →
      splitBoundaries f cs = splitBoundaries g cs := by
  have main : ∀ (n : Nat) (cs : List Char), cs.length ≤ n →
      (∀ c ∈ cs, f c = g c) → splitBoundaries f cs = splitBoundaries g cs := by
    intro n
    induction n with
    | zero =>
      intro cs hlen _
      have : cs = [] := List.eq_nil_of_length_eq_zero (Nat.le_zero.mp hlen)
      subst this
      rfl
    | succ n ih =>
      intro cs hlen hfg
      by_cases hshape : ∃ rest, cs = '\r' :: '\n' :: rest
      · rcases hshape with ⟨rest, rfl⟩
        rw [splitBoundaries_rn, splitBoundaries_rn,
          ih rest (by simp at hlen; omega) (fun c hc => hfg c (by simp [hc]))]
      · cases cs with
        | nil => rfl
        | cons c cs' =>
          have hcond : ∀ rest, c = '\r' → cs' = '\n' :: rest → False := by
            intro rest h1 h2
            exact hshape ⟨rest, by rw [h1, h2]⟩
          rw [splitBoundaries_cons f c cs' hcond, splitBoundaries_cons g c cs' hcond,
            ih cs' (by simp at hlen; omega)
              (fun d hd => hfg d (List.mem_cons_of_mem _ hd)),
            hfg c (List.mem_cons_self _ _)]
  intro cs h
  exact main cs.length cs le_rfl h

/-- C7 counterexample: the driver counts lines with `str.splitlines`,
whose boundary set is strictly larger than the universal newlines: on the
decoded text `"a\x0cb"` (a form feed, which is neither `\n` nor `\r\n`
nor `\r`) the code counts 2 lines while universal-newline splitting
counts 1, as the File Statistics driver's per-file entry records. -/
theorem spec_C7_counterexample :
    (pySplitlines "a\x0cb".data).length = 2 ∧
    (universalSplitlines "a\x0cb".data).length = 1 ∧
    (statsRun (fun _ => some "a\x0cb") id "m.py" ["f.txt"]).1 =
      [("f.txt", ⟨2, 2, 3⟩)] := by
  decide

/-- C7 amended: for every decoded text whose line-break characters are
only `\n` and `\r`, the driver's `lineCount` equals the universal-newline
segment count (`\n` and `\r\n` treated uniformly, a final unterminated
line counting, a trailing newline adding no phantom line: `"a\nb"` and
`"a\nb\n"` both count 2, the empty text 0); texts containing the further
`str.splitlines` boundaries `\v`, `\f`, `\x1c`-`\x1e`, `\x85`, `\u2028`,
`\u2029` split on those as well. -/
theorem spec_C7 (text : List Char)
    (h : ∀ c ∈ text, isPyLineBreak c = true → c = '\n' ∨ c = '\r') :
    (pySplitlines text).length = (universalSplitlines text).length ∧
    (pySplitlines "a\nb".data).length = 2 ∧
    (pySplitlines "a\nb\n".data).length = 2 ∧
    (pySplitlines "a\r\nb".data).length = 2 ∧
    (pySplitlines "".data).length = 0 := by
  refine ⟨?_, by decide, by decide, by decide, by decide⟩
  rw [pySplitlines, universalSplitlines,
    splitBoundaries_congr isPyLineBreak isUniversalBreak text ?_]
  intro c hc
  by_cases hb : isPyLineBreak c = true
  · rcases h c hc hb with h' | h' <;> subst h' <;> decide
  · have hb' : isPyLineBreak c = false := Bool.eq_false_iff.mpr hb
    by_cases h1 : c = '\n'
    · subst h1; simp [isPyLineBreak] at hb
    · by_cases h2 : c = '\r'
      · subst h2; simp [isPyLineBreak] at hb
      · rw [hb']
        have : isUniversalBreak c = false := by simp [isUniversalBreak, h1, h2]
        rw [this]

/-- Witness for the amended C7 on `"x\ny"`. -/
theorem spec_C7_witness :
    (pySplitlines "x\ny".data).length = (universalSplitlines "x\ny".data).length ∧
    (pySplitlines "a\nb".data).length = 2 ∧
    (pySplitlines "a\nb\n".data).length = 2 ∧
    (pySplitlines "a\r\nb".data).length = 2 ∧
    (pySplitlines "".data).length = 0 :=
  spec_C7 "x\ny".data (by decide)

/-! ## Report-order claim (C4) -/

/-- C4: every per-pattern path list that `write_name_search_report` emits
for a Name Search run is in ascending code-point lexicographic order. -/
theorem spec_C4 (patterns : List String) (caseSensitive : Bool)
    (abspath : String → String) (entry : String) (paths : List String) :
    ∀ q l, (q, l) ∈ reportLists patterns
        (nameSearchRun patterns caseSensitive abspath entry paths) →
      List.Sorted (fun a b => pyStrLe a b = true) l := by
  intro q l hmem
  rcases List.mem_map.mp hmem with ⟨p, _, heq⟩
  have h2 : pySorted ((dictGet?
      (nameSearchRun patterns caseSensitive abspath entry paths) p).getD []) = l :=
    (Prod.mk.injEq _ _ _ _).mp heq |>.2
  rw [← h2]
  exact sorted_pySorted _

/-- Witness for C4: a run that discovers `r/b.txt` before `r/a.txt` still
emits the list sorted. -/
theorem spec_C4_witness :
    List.Sorted (fun a b => pyStrLe a b = true) ["r/a.txt", "r/b.txt"] :=
  spec_C4 ["*.txt"] false id "m.py" ["r/b.txt", "r/a.txt"] "*.txt"
    ["r/a.txt", "r/b.txt"] (by decide)

/-! ## Self-exclusion (C5) and search-result invariants (C6) -/

theorem searchRunAux_keys (pairs : List (String × String)) (caseSensitive : Bool)
    (read : String → Option String) (abspath : String → String) (script : String)
    (Q : String × List (String × Nat) → Prop)
    (hstep : ∀ path counts, abspath path ≠ script → counts ≠ [] →
      counts = buildCounts pairs (match read path with
        | some text => if caseSensitive then text else pyLower text
        | none => "") → Q (path, counts)) :
    ∀ (paths : List String) (acc : List (String × List (String × Nat))),
      (∀ pc ∈ acc, Q pc) →
      ∀ pc ∈ searchRunAux pairs caseSensitive read abspath script acc paths, Q pc := by
  intro paths
  induction paths with
  | nil => intro acc hacc pc hpc; exact hacc pc hpc
  | cons path rest ih =>
    intro acc hacc pc hpc
    rw [searchRunAux] at hpc
    by_cases hskip : abspath path = script
    · rw [if_pos hskip] at hpc
      exact ih acc hacc pc hpc
    · rw [if_neg hskip] at hpc
      cases hread : read path with
      | none =>
        rw [hread] at hpc
        exact ih acc hacc pc hpc
      | some text =>
        rw [hread] at hpc
        dsimp only at hpc
        by_cases hempty :
            buildCounts pairs (if caseSensitive then text else pyLower text) = []
        · rw [if_pos hempty] at hpc
          exact ih acc hacc pc hpc
        · rw [if_neg hempty] at hpc
          refine ih _ ?_ pc hpc
          intro pc' hpc'
          rcases mem_dictSet hpc' with h | h
          · exact hacc pc' h
          · rw [h]
            exact hstep path _ hskip hempty (by rw [hread])

theorem mem_buildCounts {hay : String} :
    ∀ (pairs : List (String × String)) (m : List (String × Nat)) (k : String) (c : Nat),
      (k, c) ∈ pairs.foldl
        (fun m pr => let cc := pyCount hay pr.2; if cc ≠ 0 then dictSet m pr.1 cc else m) m →
      (k, c) ∈ m ∨ (0 < c ∧ ∃ pr ∈ pairs, pr.1 = k) := by
  intro pairs
  induction pairs with
  | nil => intro m k c h; left; exact h
  | cons pr rest ih =>
    intro m k c h
    rw [List.foldl_cons] at h
    rcases ih _ k c h with h' | h'
    · dsimp only at h'
      by_cases hc : pyCount hay pr.2 ≠ 0
      · rw [if_pos hc] at h'
        rcases mem_dictSet h' with h'' | h''
        · left; exact h''
        · right
          rw [Prod.mk.injEq] at h''
          refine ⟨?_, pr, List.mem_cons_self _ _, h''.1.symm⟩
          rw [h''.2]
          omega
      · rw [if_neg hc] at h'
        left; exact h'
    · right
      rcases h' with ⟨hc, pr', hpr', hk⟩
      exact ⟨hc, pr', List.mem_cons_of_mem _ hpr', hk⟩

theorem statsRunAux_keys (read : String → Option String) (abspath : String → String)
    (script : String) (Q : String → Prop)
    (hstep : ∀ path, abspath path ≠ script → Q path) :
    ∀ (paths : List String) (pf : List (String × FileCounts))
      (pe : List (String × ExtAgg)),
      (∀ pc ∈ pf, Q pc.1) →
      ∀ pc ∈ (statsRunAux read abspath script pf pe paths).1, Q pc.1 := by
  intro paths
  induction paths with
  | nil => intro pf pe hpf pc hpc; exact hpf pc hpc
  | cons path rest ih =>
    intro pf pe hpf pc hpc
    rw [statsRunAux] at hpc
    by_cases hskip : abspath path = script
    · rw [if_pos hskip] at hpc
      exact ih pf pe hpf pc hpc
    · rw [if_neg hskip] at hpc
      cases hread : read path with
      | none =>
        rw [hread] at hpc
        exact ih pf pe hpf pc hpc
      | some text =>
        rw [hread] at hpc
        dsimp only at hpc
        refine ih _ _ ?_ pc hpc
        intro pc' hpc'
        rcases mem_dictSet hpc' with h | h
        · exact hpf pc' h
        · rw [h]
          exact hstep path hskip

theorem foldl_dictAppend_inv (Q : String → Prop) (v : String) (hv : Q v) :
    ∀ (ms : List String) (acc : List (String × List String)),
      (∀ ql ∈ acc, ∀ x ∈ ql.2, Q x) →
      ∀ ql ∈ ms.foldl (fun h p => dictAppend h p v) acc, ∀ x ∈ ql.2, Q x := by
  intro ms
  induction ms with
  | nil => intro acc hacc; exact hacc
  | cons m rest ih =>
    intro acc hacc
    rw [List.foldl_cons]
    refine ih _ ?_
    intro ql hql x hx
    obtain ⟨q, l⟩ := ql
    rcases mem_dictAppend hql with ⟨vs₀, hvs₀, hor⟩
    rcases hor with heq | heq
    · rw [heq] at hx
      exact hacc (q, vs₀) hvs₀ x hx
    · rw [heq] at hx
      rcases List.mem_append.mp hx with hx' | hx'
      · exact hacc (q, vs₀) hvs₀ x hx'
      · rw [List.mem_singleton.mp hx']
        exact hv

theorem nameSearchRunAux_inv (patterns : List String) (caseSensitive : Bool)
    (abspath : String → String) (script : String) (Q : String → Prop)
    (hstep : ∀ path, abspath path ≠ script → Q path) :
    ∀ (paths : List String) (acc : List (String × List String)),
      (∀ ql ∈ acc, ∀ x ∈ ql.2, Q x) →
      ∀ ql ∈ nameSearchRunAux patterns caseSensitive abspath script acc paths,
        ∀ x ∈ ql.2, Q x := by
  intro paths
  induction paths with
  | nil => intro acc hacc; exact hacc
  | cons path rest ih =>
    intro acc hacc
    rw [nameSearchRunAux]
    by_cases hskip : abspath path = script
    · rw [if_pos hskip]
      exact ih acc hacc
    · rw [if_neg hskip]
      exact ih _ (foldl_dictAppend_inv Q path (hstep path hskip) _ acc hacc)

/-- C5: in every run of the three drivers, no path whose resolved
absolute path equals the entry file's resolved absolute path appears in
the result structure — not as a String Search key, not as a File
Statistics per-file key, not inside any Name Search hit list. -/
theorem spec_C5 (read : String → Option String) (abspath : String → String)
    (entry : String) (paths strings patterns : List String)
    (caseSensitive nsCase : Bool) :
    (∀ pc ∈ searchRun strings caseSensitive read abspath entry paths,
      abspath pc.1 ≠ abspath entry) ∧
    (∀ pc ∈ (statsRun read abspath entry paths).1, abspath pc.1 ≠ abspath entry) ∧
    (∀ ql ∈ nameSearchRun patterns nsCase abspath entry paths,
      ∀ x ∈ ql.2, abspath x ≠ abspath entry) := by
  refine ⟨?_, ?_, ?_⟩
  · intro pc hpc
    exact searchRunAux_keys
      (strings.zip (if caseSensitive then strings else strings.map pyLower))
      caseSensitive read abspath (abspath entry)
      (fun pc => abspath pc.1 ≠ abspath entry)
      (fun path counts hne _ _ => hne) paths [] (by simp) pc hpc
  · intro pc hpc
    exact statsRunAux_keys read abspath (abspath entry)
      (fun path => abspath path ≠ abspath entry)
      (fun path hne => hne) paths [] [] (by simp) pc hpc
  · intro ql hql
    refine nameSearchRunAux_inv patterns nsCase abspath (abspath entry)
      (fun path => abspath path ≠ abspath entry)
      (fun path hne => hne) paths _ ?_ ql hql
    intro ql' hql' x hx
    rcases List.mem_map.mp hql' with ⟨p, _, heq⟩
    rw [← heq] at hx
    cases hx

/-- Witness for C5: with `abspath = id` and entry `me.py` inside the
scanned paths, the surviving File Statistics key differs from the entry. -/
theorem spec_C5_witness :
    id ("r/a.py" : String) ≠ id ("me.py" : String) :=
  (spec_C5 (fun _ => some "x") id "me.py" ["me.py", "r/a.py"] ["x"] ["*.py"]
      true false).2.1 ("r/a.py", ⟨1, 1, 1⟩) (by decide)

/-- C6: every file retained by a String Search run has a non-empty count
map, every stored count is strictly positive, and every key is one of the
original search strings as supplied (not a lowercased form). -/
theorem spec_C6 (strings : List String) (caseSensitive : Bool)
    (read : String → Option String) (abspath : String → String)
    (entry : String) (paths : List String) :
    ∀ p counts, (p, counts) ∈ searchRun strings caseSensitive read abspath entry paths →
      counts ≠ [] ∧ ∀ k c, (k, c) ∈ counts → 0 < c ∧ k ∈ strings := by
  intro p counts hmem
  refine searchRunAux_keys
    (strings.zip (if caseSensitive then strings else strings.map pyLower))
    caseSensitive read abspath (abspath entry)
    (fun pc => pc.2 ≠ [] ∧ ∀ k c, (k, c) ∈ pc.2 → 0 < c ∧ k ∈ strings)
    ?_ paths [] (by simp) (p, counts) hmem
  intro path cts hne hcne hceq
  refine ⟨hcne, ?_⟩
  intro k c hkc
  rw [hceq] at hkc
  rcases mem_buildCounts _ [] k c hkc with habs | hgood
  · cases habs
  · rcases hgood with ⟨hpos, ⟨a, b⟩, hpr, hk⟩
    refine ⟨hpos, ?_⟩
    rw [← hk]
    exact (List.of_mem_zip hpr).1

/-- Witness for C6: a case-insensitive run keyed by the original
`"Hello"` with a positive count. -/
theorem spec_C6_witness :
    ([("Hello", 2)] : List (String × Nat)) ≠ [] ∧
    ∀ k c, (k, c) ∈ ([("Hello", 2)] : List (String × Nat)) →
      0 < c ∧ k ∈ ["Hello"] :=
  spec_C6 ["Hello"] false (fun _ => some "hello hello") id "m.py" ["r/a.txt"]
    "r/a.txt" [("Hello", 2)] (by decide)
